import Mathlib

/-!
Verification of the numerical core of the MathematicalFinance examples repository:
the self-contained Black-Scholes analytics (Black formula, price, theta, implied
volatility) and the Cox-Ross-Rubinstein binomial lattice model.

All real-valued functions are embedded over ℝ (exact real arithmetic); the
external standard-normal distribution functions of scipy.stats.norm are modelled
as the mathematical standard normal pdf and cdf.
-/

open MeasureTheory

open scoped Classical

/-- Standard normal probability density (external scipy.stats.norm.pdf, modelled
as the mathematical Gaussian density with mean 0 and variance 1). -/
noncomputable def normPdf : ℝ → ℝ :=
  ProbabilityTheory.gaussianPDFReal 0 1

/-- Standard normal cumulative distribution function (external
scipy.stats.norm.cdf, modelled as the integral of the density over (-∞, x]). -/
noncomputable def normCdf (x : ℝ) : ℝ :=
  ∫ t in Set.Iic x, normPdf t

/-- BlackOverK from the Black-Scholes notebook: undiscounted Black formula value
divided by the strike, as a function of moneyness, total standard deviation nu
and the call/put indicator. -/
noncomputable def BlackOverK (moneyness nu callOrPut : ℝ) : ℝ :=
  let d1 := Real.log moneyness / nu + nu / 2
  let d2 := d1 - nu
  callOrPut * (moneyness * normCdf (callOrPut * d1) - normCdf (callOrPut * d2))

/-- Black from the Black-Scholes notebook: if nu < 1.0e-12 the intrinsic value
max(callOrPut*(forward-strike), 0) is returned, otherwise
strike * BlackOverK (forward/strike) nu callOrPut. -/
noncomputable def Black (forward strike nu callOrPut : ℝ) : ℝ :=
  if nu < 1e-12 then max (callOrPut * (forward - strike)) 0
  else strike * BlackOverK (forward / strike) nu callOrPut

/-- BlackScholesPrice from the Black-Scholes notebook: discount factor
df = exp(-rate*T), total standard deviation nu = sigma*sqrt(T), and
df * Black(underlying/df, strike, nu, callOrPut). -/
noncomputable def BlackScholesPrice (underlying strike rate sigma T callOrPut : ℝ) : ℝ :=
  let df := Real.exp (-rate * T)
  let nu := sigma * Real.sqrt T
  df * Black (underlying / df) strike nu callOrPut

/-- BlackScholesTheta from the Black-Scholes notebook:
underlying * normPdf(d1) * sigma / 2 / sqrt(T)
  + callOrPut * rate * strike * exp(-rate*T) * normCdf(callOrPut * d2). -/
noncomputable def BlackScholesTheta (underlying strike rate sigma T callOrPut : ℝ) : ℝ :=
  let moneyness := Real.exp (rate * T) * underlying / strike
  let nu := sigma * Real.sqrt T
  let d1 := Real.log moneyness / nu + nu / 2
  let d2 := d1 - nu
  underlying * normPdf d1 * sigma / 2 / Real.sqrt T
    + callOrPut * rate * strike * Real.exp (-rate * T) * normCdf (callOrPut * d2)

/-- Modelled from the spec: scipy.optimize.brentq, the robust bracketed 1-D root
finder used by BlackImpliedVol; the scipy routine is not part of this
repository's sources.  It fails (raises, here: none) when the objective has the
same sign at both bracket ends or no root lies in the bracket; otherwise it
returns a root of the objective inside the bracket (idealized here to an exact
root; the floating-point routine locates it to tolerance xtol). -/
noncomputable def brentq (f : ℝ → ℝ) (a b : ℝ) : Option ℝ :=
  if h : f a * f b ≤ 0 ∧ ∃ x ∈ Set.Icc a b, f x = 0 then some h.2.choose else none

/-- BlackImpliedVol from the Black-Scholes notebook: root-find
nu ↦ Black(forward, strike, nu, callOrPut) - price over the bracket
[0.01*sqrt(T), 1.00*sqrt(T)] with brentq, and divide the root by sqrt(T). -/
noncomputable def BlackImpliedVol (price strike forward T callOrPut : ℝ) : Option ℝ :=
  (brentq (fun nu => Black forward strike nu callOrPut - price)
      (0.01 * Real.sqrt T) (1.00 * Real.sqrt T)).map
    (fun nu => nu / Real.sqrt T)

/-- CoxRossRubinsteinModel from the DaxOptions notebook: spot S0, risk-free rate
r, relative down move d, relative up move u, terminal time T, number of steps N. -/
structure CoxRossRubinsteinModel where
  S0 : ℝ
  r : ℝ
  d : ℝ
  u : ℝ
  T : ℝ
  N : ℕ

/-- The gridPoints attribute built in CoxRossRubinsteinModel.__init__: the list
starts with [1.0] and for k = 1..N appends the row
[(1+d)^(k-i) * (1+u)^i for i in range(k+1)].  Note that the source never
multiplies by S0. -/
noncomputable def CoxRossRubinsteinModel.gridPoints (m : CoxRossRubinsteinModel) :
    List (List ℝ) :=
  [[(1 : ℝ)]] ++ (List.range' 1 m.N).map (fun k =>
    (List.range (k + 1)).map (fun i => (1 + m.d) ^ (k - i) * (1 + m.u) ^ i))

/-- CoxRossRubinsteinModel.moves: the recursive move-matrix doubling of the
source.  The Python recursion has base case depth == 1 and does not terminate
for depth ≤ 0; the claims only concern depth ≥ 1 and we set the depth-0 value
to the empty list. -/
noncomputable def CoxRossRubinsteinModel.moves (m : CoxRossRubinsteinModel) :
    ℕ → List (List ℝ)
  | 0 => []
  | 1 => [[m.d], [m.u]]
  | n + 2 =>
    let subTree := CoxRossRubinsteinModel.moves m (n + 1)
    subTree.map (fun row => m.d :: row) ++ subTree.map (fun row => m.u :: row)

/-- CoxRossRubinsteinModel.paths: each row starts at 1.0 (np.ones) and satisfies
p[k+1] = p[k] * (1 + move_k) along the corresponding move sequence of
moves(N); embedded as a scanl over each row of the move matrix.  Note that the
source never multiplies by S0. -/
noncomputable def CoxRossRubinsteinModel.paths (m : CoxRossRubinsteinModel) :
    List (List ℝ) :=
  (m.moves m.N).map (fun row => row.scanl (fun p mv => p * (1 + mv)) 1)

/-! Basic facts about the modelled standard normal pdf and cdf. -/

lemma continuous_normPdf : Continuous normPdf := by
  simp only [normPdf, ProbabilityTheory.gaussianPDFReal_def]
  fun_prop

lemma integrable_normPdf : Integrable normPdf :=
  ProbabilityTheory.integrable_gaussianPDFReal 0 1

lemma normPdf_pos (x : ℝ) : 0 < normPdf x :=
  ProbabilityTheory.gaussianPDFReal_pos 0 1 x one_ne_zero

lemma normPdf_neg (x : ℝ) : normPdf (-x) = normPdf x := by
  simp only [normPdf, ProbabilityTheory.gaussianPDFReal]
  ring_nf

lemma normCdf_add_neg (x : ℝ) : normCdf x + normCdf (-x) = 1 := by
  have h1 : (∫ t in Set.Iic x, normPdf t) = ∫ t in Set.Ioi (-x), normPdf t := by
    have h2 := integral_comp_neg_Iic x normPdf
    have h3 : (∫ t in Set.Iic x, normPdf (-t)) = ∫ t in Set.Iic x, normPdf t :=
      setIntegral_congr_fun measurableSet_Iic (fun t _ => normPdf_neg t)
    rw [← h3, h2]
  have h4 : (∫ t in Set.Iic (-x), normPdf t) + (∫ t in Set.Ioi (-x), normPdf t)
      = ∫ t, normPdf t :=
    intervalIntegral.integral_Iic_add_Ioi integrable_normPdf.integrableOn
      integrable_normPdf.integrableOn
  have h5 : (∫ t, normPdf t) = 1 :=
    ProbabilityTheory.integral_gaussianPDFReal_eq_one 0 one_ne_zero
  simp only [normCdf]
  rw [h1]
  linarith

lemma hasDerivAt_normCdf (x : ℝ) : HasDerivAt normCdf (normPdf x) x := by
  have key : ∀ u : ℝ, normCdf u = normCdf 0 + ∫ t in (0 : ℝ)..u, normPdf t := by
    intro u
    have h0 : IntegrableOn normPdf (Set.Iic (0 : ℝ)) := integrable_normPdf.integrableOn
    have hu : IntegrableOn normPdf (Set.Iic u) := integrable_normPdf.integrableOn
    have := intervalIntegral.integral_Iic_sub_Iic h0 hu
    simp only [normCdf]
    linarith
  have hd : HasDerivAt (fun u => ∫ t in (0 : ℝ)..u, normPdf t) (normPdf x) x :=
    intervalIntegral.integral_hasDerivAt_right
      integrable_normPdf.intervalIntegrable
      (continuous_normPdf.stronglyMeasurable.stronglyMeasurableAtFilter)
      continuous_normPdf.continuousAt
  have hfun : normCdf = fun u => normCdf 0 + ∫ t in (0 : ℝ)..u, normPdf t := funext key
  rw [hfun]
  exact hd.const_add (normCdf 0)

lemma continuous_normCdf : Continuous normCdf :=
  continuous_iff_continuousAt.2 fun x => (hasDerivAt_normCdf x).differentiableAt.continuousAt

lemma normPdf_shift (m nu : ℝ) (hm : 0 < m) (hnu : nu ≠ 0) :
    normPdf (Real.log m / nu + nu / 2 - nu) = m * normPdf (Real.log m / nu + nu / 2) := by
  simp only [normPdf, ProbabilityTheory.gaussianPDFReal]
  rw [show m * ((Real.sqrt (2 * Real.pi * ((1 : NNReal) : ℝ)))⁻¹ *
        Real.exp (-(Real.log m / nu + nu / 2 - 0) ^ 2 / (2 * ((1 : NNReal) : ℝ))))
      = (Real.sqrt (2 * Real.pi * ((1 : NNReal) : ℝ)))⁻¹ *
        (Real.exp (Real.log m) *
          Real.exp (-(Real.log m / nu + nu / 2 - 0) ^ 2 / (2 * ((1 : NNReal) : ℝ))))
      from by rw [Real.exp_log hm]; ring]
  rw [← Real.exp_add]
  congr 1
  have h1 : ((1 : NNReal) : ℝ) = 1 := rfl
  rw [h1]
  field_simp
  ring

/-! Put-call parity of the Black formula and the Black-Scholes price. -/

lemma blackOverK_parity (m nu : ℝ) :
    BlackOverK m nu 1 - BlackOverK m nu (-1) = m - 1 := by
  simp only [BlackOverK, one_mul, neg_one_mul, neg_mul]
  have e1 := normCdf_add_neg (Real.log m / nu + nu / 2)
  have e2 := normCdf_add_neg (Real.log m / nu + nu / 2 - nu)
  linear_combination m * e1 - e2

lemma black_parity (F K nu : ℝ) (hK : K ≠ 0) :
    Black F K nu 1 - Black F K nu (-1) = F - K := by
  simp only [Black]
  by_cases h : nu < 1e-12
  · rw [if_pos h, if_pos h, one_mul, neg_one_mul]
    exact max_zero_sub_max_neg_zero_eq_self (F - K)
  · rw [if_neg h, if_neg h, ← mul_sub, blackOverK_parity]
    field_simp

/-- Claim C2: for S > 0, K > 0, any rate r, sigma ≥ 0 and T > 0, the call and
put Black-Scholes prices for matched strike and maturity satisfy put-call
parity exactly in real arithmetic, in both the regular and the zero-variance
branch of Black. -/
theorem blackScholes_putCallParity (S K r sigma T : ℝ) (hS : 0 < S) (hK : 0 < K)
    (hsigma : 0 ≤ sigma) (hT : 0 < T) :
    BlackScholesPrice S K r sigma T 1 - BlackScholesPrice S K r sigma T (-1)
      = S - K * Real.exp (-r * T) := by
  simp only [BlackScholesPrice]
  rw [← mul_sub, black_parity _ _ _ (ne_of_gt hK)]
  have hdf : Real.exp (-r * T) ≠ 0 := Real.exp_ne_zero _
  field_simp
  ring

/-- Witness for C2 at S = K = T = sigma = 1, r = 0. -/
theorem blackScholes_putCallParity_witness :
    (0 : ℝ) < 1 ∧ ((0 : ℝ) ≤ 1) ∧
      BlackScholesPrice 1 1 0 1 1 1 - BlackScholesPrice 1 1 0 1 1 (-1)
        = 1 - 1 * Real.exp (-0 * 1) :=
  ⟨by norm_num, by norm_num,
    blackScholes_putCallParity 1 1 0 1 1 (by norm_num) (by norm_num) (by norm_num) (by norm_num)⟩

/-! Zero-variance (degenerate) branch of Black and BlackScholesPrice. -/

/-- Claim C5: for total standard deviation nu < 1.0e-12 the Black formula
returns the intrinsic value without taking the analytic branch, and for
sigma = 0 the Black-Scholes price is the discounted intrinsic value against the
forward S * exp(r*T). -/
theorem black_zero_variance (F K nu phi S r T : ℝ) (hnu : nu < 1e-12) (hT : 0 < T) :
    Black F K nu phi = max (phi * (F - K)) 0 ∧
      BlackScholesPrice S K r 0 T phi
        = Real.exp (-r * T) * max (phi * (S * Real.exp (r * T) - K)) 0 := by
  constructor
  · simp only [Black]
    rw [if_pos hnu]
  · simp only [BlackScholesPrice, Black]
    rw [zero_mul, if_pos (by norm_num : (0 : ℝ) < 1e-12)]
    have he : Real.exp (r * T) * Real.exp (-r * T) = 1 := by
      rw [← Real.exp_add]
      ring_nf
      exact Real.exp_zero
    have h : S / Real.exp (-r * T) = S * Real.exp (r * T) := by
      rw [div_eq_iff (Real.exp_ne_zero _), mul_assoc, he, mul_one]
    rw [h]

/-- Witness for C5 at nu = 0, F = 2, K = 1, phi = 1, S = 2, r = 0, T = 1. -/
theorem black_zero_variance_witness :
    (0 : ℝ) < 1e-12 ∧ (0 : ℝ) < 1 ∧
      (Black 2 1 0 1 = max (1 * (2 - 1)) 0 ∧
        BlackScholesPrice 2 1 0 0 1 1
          = Real.exp (-0 * 1) * max (1 * (2 * Real.exp (0 * 1) - 1)) 0) :=
  ⟨by norm_num, by norm_num,
    black_zero_variance 2 1 0 1 2 0 1 (by norm_num) (by norm_num)⟩

/-! Structure of the Cox-Ross-Rubinstein lattice. -/

lemma crr_gridPoints_row (m : CoxRossRubinsteinModel) (k : ℕ) (hk : k ≤ m.N) :
    m.gridPoints.getD k []
      = (List.range (k + 1)).map (fun i => (1 + m.d) ^ (k - i) * (1 + m.u) ^ i) := by
  cases k with
  | zero =>
    norm_num [CoxRossRubinsteinModel.gridPoints, show List.range 1 = [0] from rfl]
  | succ k =>
    have hkN : k < m.N := hk
    have hsplit : m.gridPoints = [(1 : ℝ)] :: (List.range' 1 m.N).map (fun j =>
        (List.range (j + 1)).map (fun i => (1 + m.d) ^ (j - i) * (1 + m.u) ^ i)) := rfl
    rw [hsplit, List.getD_cons_succ, List.getD_eq_getElem?_getD, List.getElem?_map,
      List.getElem?_range' 1 1 hkN]
    have h11 : 1 + 1 * k = k + 1 := by omega
    rw [h11]
    rfl

lemma crr_gridPoints_getD (m : CoxRossRubinsteinModel) (k i : ℕ) (hk : k ≤ m.N)
    (hi : i ≤ k) :
    (m.gridPoints.getD k []).getD i 0 = (1 + m.d) ^ (k - i) * (1 + m.u) ^ i := by
  rw [crr_gridPoints_row m k hk, List.getD_eq_getElem?_getD, List.getElem?_map,
    List.getElem?_range (Nat.lt_succ_of_le hi)]
  rfl

lemma crr_gridPoints_row_length (m : CoxRossRubinsteinModel) (k : ℕ) (hk : k ≤ m.N) :
    (m.gridPoints.getD k []).length = k + 1 := by
  rw [crr_gridPoints_row m k hk, List.length_map, List.length_range]

lemma crr_gridPoints_length (m : CoxRossRubinsteinModel) :
    m.gridPoints.length = m.N + 1 := by
  simp [CoxRossRubinsteinModel.gridPoints, Nat.add_comm]

/-- Claim C1 (amended): the lattice rows have k+1 entries and the entries are
(1+d)^(k-i) * (1+u)^i; the source never multiplies by S0, so the lattice is the
one normalized to unit spot. -/
theorem crr_gridPoints_spec (m : CoxRossRubinsteinModel) (hS0 : 0 < m.S0)
    (hd : -1 < m.d) (hdu : m.d < m.u) (hN : 1 ≤ m.N) (k i : ℕ) (hk : k ≤ m.N)
    (hi : i ≤ k) :
    m.gridPoints.length = m.N + 1 ∧ (m.gridPoints.getD k []).length = k + 1 ∧
      (m.gridPoints.getD k []).getD i 0 = (1 + m.d) ^ (k - i) * (1 + m.u) ^ i :=
  ⟨crr_gridPoints_length m, crr_gridPoints_row_length m k hk,
    crr_gridPoints_getD m k i hk hi⟩

/-- Witness for the amended C1 at S0 = 1, d = -1/2, u = 1, N = 2, k = 1, i = 1. -/
theorem crr_gridPoints_spec_witness :
    ((0 : ℝ) < 1 ∧ (-1 : ℝ) < -(1/2) ∧ (-(1/2) : ℝ) < 1 ∧ 1 ≤ 2 ∧ 1 ≤ 2 ∧ 1 ≤ 1) ∧
      (CoxRossRubinsteinModel.gridPoints ⟨1, 0, -(1/2), 1, 1, 2⟩).length = 2 + 1 ∧
      ((CoxRossRubinsteinModel.gridPoints ⟨1, 0, -(1/2), 1, 1, 2⟩).getD 1 []).length
        = 1 + 1 ∧
      ((CoxRossRubinsteinModel.gridPoints ⟨1, 0, -(1/2), 1, 1, 2⟩).getD 1 []).getD 1 0
        = (1 + -(1/2)) ^ (1 - 1) * (1 + 1) ^ 1 :=
  ⟨⟨by norm_num, by norm_num, by norm_num, by norm_num, by norm_num, by norm_num⟩,
    crr_gridPoints_spec ⟨1, 0, -(1/2), 1, 1, 2⟩ (by norm_num) (by norm_num) (by norm_num)
      (by norm_num) 1 1 (by norm_num) (by norm_num)⟩

/-- Counterexample to C1 as stated: for the model with S0 = 2, d = 0, u = 1,
N = 1, the grid entry at k = 0, i = 0 is 1, not S0 * (1+d)^0 * (1+u)^0 = 2:
the source never scales the lattice by S0. -/
theorem crr_gridPoints_claim_cex :
    ¬ (((CoxRossRubinsteinModel.gridPoints ⟨2, 0, 0, 1, 1, 1⟩).getD 0 []).getD 0 0
        = (2 : ℝ) * (1 + 0) ^ ((0 : ℕ) - 0) * (1 + 1) ^ (0 : ℕ)) := by
  have h := crr_gridPoints_getD ⟨2, 0, 0, 1, 1, 1⟩ 0 0 (Nat.zero_le _) (Nat.le_refl 0)
  rw [h]
  norm_num

lemma crr_moves_length (m : CoxRossRubinsteinModel) (n : ℕ) :
    (m.moves (n + 1)).length = 2 ^ (n + 1) := by
  induction n with
  | zero => rfl
  | succ n ih =>
    show (m.moves (n + 2)).length = 2 ^ (n + 2)
    simp only [CoxRossRubinsteinModel.moves, List.length_append, List.length_map, ih]
    ring

lemma crr_moves_mem (m : CoxRossRubinsteinModel) (n : ℕ) :
    ∀ row ∈ m.moves (n + 1), row.length = n + 1 ∧ ∀ x ∈ row, x = m.d ∨ x = m.u := by
  induction n with
  | zero =>
    intro row hrow
    have : row = [m.d] ∨ row = [m.u] := by
      simpa [CoxRossRubinsteinModel.moves] using hrow
    rcases this with rfl | rfl
    · exact ⟨rfl, by intro x hx; left; simpa using hx⟩
    · exact ⟨rfl, by intro x hx; right; simpa using hx⟩
  | succ n ih =>
    intro row hrow
    have hrow' : row ∈ (m.moves (n + 1)).map (fun r => m.d :: r) ++
        (m.moves (n + 1)).map (fun r => m.u :: r) := hrow
    rcases List.mem_append.1 hrow' with hmem | hmem
    · obtain ⟨r, hr, rfl⟩ := List.mem_map.1 hmem
      obtain ⟨hlen, hall⟩ := ih r hr
      refine ⟨by simp [hlen], ?_⟩
      intro x hx
      rcases List.mem_cons.1 hx with rfl | hx'
      · exact Or.inl rfl
      · exact hall x hx'
    · obtain ⟨r, hr, rfl⟩ := List.mem_map.1 hmem
      obtain ⟨hlen, hall⟩ := ih r hr
      refine ⟨by simp [hlen], ?_⟩
      intro x hx
      rcases List.mem_cons.1 hx with rfl | hx'
      · exact Or.inr rfl
      · exact hall x hx'

lemma crr_moves_getD_zero (m : CoxRossRubinsteinModel) (n : ℕ) :
    (m.moves (n + 1)).getD 0 [] = List.replicate (n + 1) m.d := by
  induction n with
  | zero => rfl
  | succ n ih =>
    have hne : m.moves (n + 1) ≠ [] := by
      intro h
      have hlen := crr_moves_length m n
      rw [h] at hlen
      have hpos : (0 : ℕ) < 2 ^ (n + 1) := pow_pos (by norm_num) (n + 1)
      simp at hlen
      omega
    obtain ⟨a, tl, hsub⟩ : ∃ a tl, m.moves (n + 1) = a :: tl := by
      cases hcase : m.moves (n + 1) with
      | nil => exact absurd hcase hne
      | cons a tl => exact ⟨a, tl, rfl⟩
    show ((m.moves (n + 1)).map (fun r => m.d :: r) ++
        (m.moves (n + 1)).map (fun r => m.u :: r)).getD 0 [] = _
    rw [hsub]
    have ha : a = List.replicate (n + 1) m.d := by
      have := ih
      rw [hsub] at this
      simpa using this
    simp [ha, List.replicate_succ]

lemma crr_moves_head (m : CoxRossRubinsteinModel) (n i : ℕ) (hi : i < 2 ^ (n + 1)) :
    ((m.moves (n + 1)).getD i []).getD 0 0 = if i < 2 ^ n then m.d else m.u := by
  cases n with
  | zero =>
    interval_cases i
    · rfl
    · rfl
  | succ n =>
    have hlen : (m.moves (n + 1)).length = 2 ^ (n + 1) := crr_moves_length m n
    show (((m.moves (n + 1)).map (fun r => m.d :: r) ++
        (m.moves (n + 1)).map (fun r => m.u :: r)).getD i []).getD 0 0 = _
    by_cases hcase : i < 2 ^ (n + 1)
    · rw [if_pos hcase]
      have hilen : i < ((m.moves (n + 1)).map (fun r => m.d :: r)).length := by
        rw [List.length_map, hlen]; exact hcase
      have hi2 : i < (m.moves (n + 1)).length := by rw [hlen]; exact hcase
      have hkey : (((m.moves (n + 1)).map (fun r => m.d :: r)) ++
          ((m.moves (n + 1)).map (fun r => m.u :: r))).getD i []
          = m.d :: (m.moves (n + 1)).get ⟨i, hi2⟩ := by
        rw [List.getD_eq_getElem?_getD, List.getElem?_append_left hilen, List.getElem?_map,
          List.getElem?_eq_getElem hi2]
        rfl
      rw [hkey]
      rfl
    · rw [if_neg hcase]
      have hge : ((m.moves (n + 1)).map (fun r => m.d :: r)).length ≤ i := by
        rw [List.length_map, hlen]; omega
      have hpow : (2 : ℕ) ^ (n + 1 + 1) = 2 ^ (n + 1) + 2 ^ (n + 1) := by ring
      have hi2 : i - ((m.moves (n + 1)).map (fun r => m.d :: r)).length
          < (m.moves (n + 1)).length := by
        rw [List.length_map, hlen]
        omega
      have hkey : (((m.moves (n + 1)).map (fun r => m.d :: r)) ++
          ((m.moves (n + 1)).map (fun r => m.u :: r))).getD i []
          = m.u :: (m.moves (n + 1)).get
              ⟨i - ((m.moves (n + 1)).map (fun r => m.d :: r)).length, hi2⟩ := by
        rw [List.getD_eq_getElem?_getD, List.getElem?_append_right hge, List.getElem?_map,
          List.getElem?_eq_getElem hi2]
        rfl
      rw [hkey]
      rfl

/-- Claim C8: for every depth ≥ 1, moves(depth) terminates (it is a total Lean
function) and returns exactly 2^depth sequences of length depth over the two
moves d and u, the all-d sequence first, with every sequence whose leading
coordinate is d (the first 2^(depth-1) rows) preceding every sequence whose
leading coordinate is u. -/
theorem crr_moves_spec (m : CoxRossRubinsteinModel) (depth : ℕ) (hdepth : 1 ≤ depth) :
    (m.moves depth).length = 2 ^ depth ∧
      (∀ row ∈ m.moves depth, row.length = depth ∧ ∀ x ∈ row, x = m.d ∨ x = m.u) ∧
      (m.moves depth).getD 0 [] = List.replicate depth m.d ∧
      ∀ i < 2 ^ depth,
        ((m.moves depth).getD i []).getD 0 0
          = if i < 2 ^ (depth - 1) then m.d else m.u := by
  obtain ⟨n, rfl⟩ : ∃ n, depth = n + 1 := ⟨depth - 1, by omega⟩
  refine ⟨crr_moves_length m n, crr_moves_mem m n, crr_moves_getD_zero m n, ?_⟩
  intro i hi
  have h := crr_moves_head m n i hi
  simpa using h

/-- Witness for C8 at the model with d = 0, u = 1, depth = 2. -/
theorem crr_moves_spec_witness :
    (1 ≤ 2) ∧
      ((CoxRossRubinsteinModel.moves ⟨1, 0, 0, 1, 1, 2⟩ 2).length = 2 ^ 2 ∧
        (∀ row ∈ CoxRossRubinsteinModel.moves ⟨1, 0, 0, 1, 1, 2⟩ 2,
          row.length = 2 ∧ ∀ x ∈ row,
            x = (CoxRossRubinsteinModel.mk 1 0 0 1 1 2).d ∨
              x = (CoxRossRubinsteinModel.mk 1 0 0 1 1 2).u) ∧
        (CoxRossRubinsteinModel.moves ⟨1, 0, 0, 1, 1, 2⟩ 2).getD 0 []
          = List.replicate 2 (CoxRossRubinsteinModel.mk 1 0 0 1 1 2).d ∧
        ∀ i < 2 ^ 2,
          ((CoxRossRubinsteinModel.moves ⟨1, 0, 0, 1, 1, 2⟩ 2).getD i []).getD 0 0
            = if i < 2 ^ (2 - 1) then (CoxRossRubinsteinModel.mk 1 0 0 1 1 2).d
              else (CoxRossRubinsteinModel.mk 1 0 0 1 1 2).u) :=
  ⟨by norm_num, crr_moves_spec ⟨1, 0, 0, 1, 1, 2⟩ 2 (by norm_num)⟩

lemma scanl_mul_one_add (l : List ℝ) (c : ℝ) :
    l.scanl (fun p mv => p * (1 + mv)) c
      = (List.range (l.length + 1)).map
          (fun j => c * ((l.take j).map (fun x => 1 + x)).prod) := by
  induction l generalizing c with
  | nil =>
    simp
  | cons a tl ih =>
    rw [List.scanl_cons, ih (c * (1 + a))]
    have hr : List.range ((a :: tl).length + 1)
        = 0 :: (List.range (tl.length + 1)).map Nat.succ := by
      rw [List.length_cons, List.range_succ_eq_map]
    rw [hr, List.map_cons, List.map_map]
    simp only [List.take_zero, List.map_nil, List.prod_nil, mul_one, List.singleton_append]
    congr 1
    congr 1
    funext j
    simp only [Function.comp_apply, List.take_succ_cons, List.map_cons, List.prod_cons]
    ring

/-- Claim C3 (amended): paths() has 2^N rows of N+1 entries; each row is the
cumulative product starting from 1 (np.ones) of the factors (1 + move_k) along
its move sequence, so the first column is identically 1, not S0: the source
never multiplies the paths by S0. -/
theorem crr_paths_spec (m : CoxRossRubinsteinModel) (hN : 1 ≤ m.N) :
    m.paths.length = 2 ^ m.N ∧
      m.paths = (m.moves m.N).map (fun mvs =>
        (List.range (m.N + 1)).map
          (fun j => ((mvs.take j).map (fun x => 1 + x)).prod)) ∧
      ∀ row ∈ m.paths, row.length = m.N + 1 ∧ row.getD 0 0 = 1 := by
  obtain ⟨n, hn⟩ : ∃ n, m.N = n + 1 := ⟨m.N - 1, by omega⟩
  have hlen : (m.moves m.N).length = 2 ^ m.N := by rw [hn]; exact crr_moves_length m n
  have hrowlen : ∀ mvs ∈ m.moves m.N, mvs.length = m.N := by
    intro mvs hmvs
    rw [hn] at hmvs ⊢
    exact (crr_moves_mem m n mvs hmvs).1
  refine ⟨?_, ?_, ?_⟩
  · rw [CoxRossRubinsteinModel.paths, List.length_map, hlen]
  · rw [CoxRossRubinsteinModel.paths]
    apply List.map_congr_left
    intro mvs hmvs
    rw [scanl_mul_one_add, hrowlen mvs hmvs]
    apply List.map_congr_left
    intro j _
    rw [one_mul]
  · intro row hrow
    obtain ⟨mvs, hmvs, hform⟩ := List.mem_map.1 hrow
    constructor
    · rw [← hform, List.length_scanl, hrowlen mvs hmvs]
    · rw [← hform]
      cases mvs with
      | nil => rfl
      | cons a tl => rfl

/-- Counterexample to C3 as stated: for the model with S0 = 2, d = 0, u = 1,
N = 1, the first entry of the first path row is 1, not S0 = 2: the source
builds the paths from np.ones without scaling by S0. -/
theorem crr_paths_claim_cex :
    ¬ (((CoxRossRubinsteinModel.paths ⟨2, 0, 0, 1, 1, 1⟩).getD 0 []).getD 0 0
        = (CoxRossRubinsteinModel.mk 2 0 0 1 1 1).S0) := by
  have h : (CoxRossRubinsteinModel.paths ⟨2, 0, 0, 1, 1, 1⟩).getD 0 []
      = [(1 : ℝ), 1 * (1 + 0)] := rfl
  rw [h]
  norm_num

lemma prod_one_add_of_mem (d u : ℝ) :
    ∀ l : List ℝ, (∀ x ∈ l, x = d ∨ x = u) →
      ∃ i, i ≤ l.length ∧
        (l.map (fun x => 1 + x)).prod = (1 + d) ^ (l.length - i) * (1 + u) ^ i := by
  intro l
  induction l with
  | nil =>
    intro _
    exact ⟨0, Nat.le_refl 0, by simp⟩
  | cons a tl ih =>
    intro hl
    obtain ⟨i, hi, hprod⟩ := ih (fun x hx => hl x (List.mem_cons_of_mem a hx))
    rcases hl a (List.mem_cons_self a tl) with ha | ha
    · refine ⟨i, by simp; omega, ?_⟩
      rw [List.map_cons, List.prod_cons, hprod, ha, List.length_cons,
        show tl.length + 1 - i = (tl.length - i) + 1 from by omega]
      ring
    · refine ⟨i + 1, by simp; omega, ?_⟩
      rw [List.map_cons, List.prod_cons, hprod, ha, List.length_cons,
        show tl.length + 1 - (i + 1) = tl.length - i from by omega]
      ring

/-- Claim C9: every row of paths() ends on a node of the recombining lattice:
its terminal entry equals gridPoints[N][i] for the number i of up-moves along
the row (in exact real arithmetic). -/
theorem crr_paths_terminal_on_grid (m : CoxRossRubinsteinModel) (hd : -1 < m.d)
    (hdu : m.d < m.u) (hN : 1 ≤ m.N) :
    ∀ row ∈ m.paths, ∃ i, i ≤ m.N ∧
      row.getD m.N 0 = (m.gridPoints.getD m.N []).getD i 0 := by
  obtain ⟨n, hn⟩ : ∃ n, m.N = n + 1 := ⟨m.N - 1, by omega⟩
  intro row hrow
  obtain ⟨mvs, hmvs, hform⟩ := List.mem_map.1 hrow
  have hrowlen : mvs.length = m.N := by
    rw [hn] at hmvs ⊢
    exact (crr_moves_mem m n mvs hmvs).1
  have hmem : ∀ x ∈ mvs, x = m.d ∨ x = m.u := by
    rw [hn] at hmvs
    exact (crr_moves_mem m n mvs hmvs).2
  obtain ⟨i, hi, hprod⟩ := prod_one_add_of_mem m.d m.u mvs hmem
  rw [hrowlen] at hi hprod
  refine ⟨i, hi, ?_⟩
  have hterm : row.getD m.N 0 = ((mvs.map (fun x => 1 + x)).prod) := by
    rw [← hform, scanl_mul_one_add, hrowlen, List.getD_eq_getElem?_getD,
      List.getElem?_map, List.getElem?_range (Nat.lt_succ_self m.N)]
    simp only [Option.map_some', Option.getD_some, one_mul]
    rw [List.take_of_length_le (le_of_eq hrowlen)]
  rw [hterm, hprod, crr_gridPoints_getD m m.N i (Nat.le_refl m.N) hi]

/-- Witness for C9 at the model with S0 = 1, d = 0, u = 1, N = 1. -/
theorem crr_paths_terminal_on_grid_witness :
    ((-1 : ℝ) < 0 ∧ (0 : ℝ) < 1 ∧ 1 ≤ 1) ∧
      ∀ row ∈ CoxRossRubinsteinModel.paths ⟨1, 0, 0, 1, 1, 1⟩, ∃ i, i ≤ 1 ∧
        row.getD 1 0
          = ((CoxRossRubinsteinModel.gridPoints ⟨1, 0, 0, 1, 1, 1⟩).getD 1 []).getD i 0 :=
  ⟨⟨by norm_num, by norm_num, by norm_num⟩,
    crr_paths_terminal_on_grid ⟨1, 0, 0, 1, 1, 1⟩ (by norm_num) (by norm_num) (by norm_num)⟩

/-- Witness for the amended C3 at the model with S0 = 1, d = 0, u = 1, N = 1. -/
theorem crr_paths_spec_witness :
    (1 ≤ 1) ∧
      ((CoxRossRubinsteinModel.paths ⟨1, 0, 0, 1, 1, 1⟩).length = 2 ^ 1 ∧
        CoxRossRubinsteinModel.paths ⟨1, 0, 0, 1, 1, 1⟩
          = (CoxRossRubinsteinModel.moves ⟨1, 0, 0, 1, 1, 1⟩ 1).map (fun mvs =>
              (List.range (1 + 1)).map
                (fun j => ((mvs.take j).map (fun x => 1 + x)).prod)) ∧
        ∀ row ∈ CoxRossRubinsteinModel.paths ⟨1, 0, 0, 1, 1, 1⟩,
          row.length = 1 + 1 ∧ row.getD 0 0 = 1) :=
  ⟨by norm_num, crr_paths_spec ⟨1, 0, 0, 1, 1, 1⟩ (by norm_num)⟩

/-! Derivative of the Black formula in the total standard deviation. -/

lemma hasDerivAt_black_nu (F K phi nu : ℝ) (hF : 0 < F) (hK : 0 < K)
    (hphi : phi = 1 ∨ phi = -1) (hnu : 1e-12 < nu) :
    HasDerivAt (fun x => Black F K x phi)
      (F * normPdf (Real.log (F / K) / nu + nu / 2)) nu := by
  have hnu0 : nu ≠ 0 := ne_of_gt (lt_trans (by norm_num) hnu)
  have hFK : 0 < F / K := div_pos hF hK
  have hK0 : K ≠ 0 := ne_of_gt hK
  set c := Real.log (F / K) with hc
  have hd1 : HasDerivAt (fun x : ℝ => c / x + x / 2) (-c / nu ^ 2 + 1 / 2) nu := by
    have h1 : HasDerivAt (fun x : ℝ => c / x) (-c / nu ^ 2) nu := by
      have h := (hasDerivAt_const nu c).div (hasDerivAt_id nu) hnu0
      convert h using 1
      simp only [id_eq]
      ring
    have h2 : HasDerivAt (fun x : ℝ => x / 2) (1 / 2) nu := (hasDerivAt_id nu).div_const 2
    exact h1.add h2
  have hd2 : HasDerivAt (fun x : ℝ => c / x + x / 2 - x) (-c / nu ^ 2 + 1 / 2 - 1) nu :=
    hd1.sub (hasDerivAt_id nu)
  have hQ1 : HasDerivAt (fun x : ℝ => normCdf (phi * (c / x + x / 2)))
      (normPdf (phi * (c / nu + nu / 2)) * (phi * (-c / nu ^ 2 + 1 / 2))) nu :=
    (hasDerivAt_normCdf (phi * (c / nu + nu / 2))).comp nu (hd1.const_mul phi)
  have hQ2 : HasDerivAt (fun x : ℝ => normCdf (phi * (c / x + x / 2 - x)))
      (normPdf (phi * (c / nu + nu / 2 - nu)) * (phi * (-c / nu ^ 2 + 1 / 2 - 1))) nu :=
    (hasDerivAt_normCdf (phi * (c / nu + nu / 2 - nu))).comp nu (hd2.const_mul phi)
  have hL : HasDerivAt (fun x : ℝ =>
      K * (phi * ((F / K) * normCdf (phi * (c / x + x / 2))
        - normCdf (phi * (c / x + x / 2 - x)))))
      (K * (phi * ((F / K) *
          (normPdf (phi * (c / nu + nu / 2)) * (phi * (-c / nu ^ 2 + 1 / 2)))
        - normPdf (phi * (c / nu + nu / 2 - nu)) * (phi * (-c / nu ^ 2 + 1 / 2 - 1))))) nu :=
    (((hQ1.const_mul (F / K)).sub hQ2).const_mul phi).const_mul K
  have hev : (fun x => Black F K x phi)
      =ᶠ[nhds nu] (fun x : ℝ => K * (phi * ((F / K) * normCdf (phi * (c / x + x / 2))
        - normCdf (phi * (c / x + x / 2 - x))))) := by
    filter_upwards [eventually_gt_nhds hnu] with x hx
    rw [Black, if_neg (not_lt.2 (le_of_lt hx))]
    rfl
  have hmain := hL.congr_of_eventuallyEq hev
  convert hmain using 1
  have hshift := normPdf_shift (F / K) nu hFK hnu0
  rw [← hc] at hshift
  rcases hphi with rfl | rfl
  · simp only [one_mul]
    rw [hshift]
    field_simp
    ring
  · simp only [neg_one_mul, normPdf_neg]
    rw [hshift]
    field_simp
    ring

/-! Behaviour of the modelled bracketed root finder. -/

lemma brentq_eq_some (f : ℝ → ℝ) (a b x : ℝ) (hsign : f a * f b ≤ 0)
    (hx : x ∈ Set.Icc a b) (hfx : f x = 0)
    (huniq : ∀ y ∈ Set.Icc a b, f y = 0 → y = x) :
    brentq f a b = some x := by
  have hex : ∃ y ∈ Set.Icc a b, f y = 0 := ⟨x, hx, hfx⟩
  rw [brentq, dif_pos (⟨hsign, hex⟩ : _ ∧ _)]
  exact congrArg some (huniq _ hex.choose_spec.1 hex.choose_spec.2)

lemma brentq_mem (f : ℝ → ℝ) (a b x : ℝ) (h : brentq f a b = some x) :
    x ∈ Set.Icc a b ∧ f x = 0 := by
  rw [brentq] at h
  by_cases hcond : f a * f b ≤ 0 ∧ ∃ y ∈ Set.Icc a b, f y = 0
  · rw [dif_pos hcond] at h
    have hx : hcond.2.choose = x := Option.some_inj.1 h
    rw [← hx]
    exact hcond.2.choose_spec
  · rw [dif_neg hcond] at h
    exact absurd h (by simp)

lemma brentq_eq_none_iff (f : ℝ → ℝ) (a b : ℝ) :
    brentq f a b = none ↔ ¬ (f a * f b ≤ 0 ∧ ∃ x ∈ Set.Icc a b, f x = 0) := by
  by_cases hcond : f a * f b ≤ 0 ∧ ∃ x ∈ Set.Icc a b, f x = 0
  · rw [brentq, dif_pos hcond]
    exact iff_of_false (by simp) (not_not_intro hcond)
  · rw [brentq, dif_neg hcond]
    exact iff_of_true rfl hcond

/-! Monotonicity and continuity of the Black formula in the total standard
deviation over a bracket bounded away from the degenerate branch. -/

lemma continuousOn_black_analytic (F K phi lo hi : ℝ) (hlo : 0 < lo) :
    ContinuousOn (fun x => K * BlackOverK (F / K) x phi) (Set.Icc lo hi) := by
  intro x hx
  have hx0 : x ≠ 0 := ne_of_gt (lt_of_lt_of_le hlo hx.1)
  have hcd1 : ContinuousAt (fun y : ℝ => phi * (Real.log (F / K) / y + y / 2)) x :=
    continuousAt_const.mul ((continuousAt_const.div continuousAt_id hx0).add
      (continuousAt_id.div_const 2))
  have hcd2 : ContinuousAt (fun y : ℝ => phi * (Real.log (F / K) / y + y / 2 - y)) x :=
    continuousAt_const.mul (((continuousAt_const.div continuousAt_id hx0).add
      (continuousAt_id.div_const 2)).sub continuousAt_id)
  exact (continuousAt_const.mul (continuousAt_const.mul
    ((continuousAt_const.mul (continuous_normCdf.continuousAt.comp hcd1)).sub
      (continuous_normCdf.continuousAt.comp hcd2)))).continuousWithinAt

lemma black_eq_analytic_on (F K phi lo hi : ℝ) (hlo : 1e-12 ≤ lo) :
    ∀ x ∈ Set.Icc lo hi, Black F K x phi = K * BlackOverK (F / K) x phi := by
  intro x hx
  rw [Black, if_neg (not_lt.2 (le_trans hlo hx.1))]

lemma black_strictMonoOn (F K phi lo hi : ℝ) (hF : 0 < F) (hK : 0 < K)
    (hphi : phi = 1 ∨ phi = -1) (hlo : 1e-12 ≤ lo) :
    StrictMonoOn (fun x => Black F K x phi) (Set.Icc lo hi) := by
  have hlo0 : 0 < lo := lt_of_lt_of_le (by norm_num) hlo
  have heq := black_eq_analytic_on F K phi lo hi hlo
  have hmono : StrictMonoOn (fun x => K * BlackOverK (F / K) x phi) (Set.Icc lo hi) := by
    apply strictMonoOn_of_deriv_pos (convex_Icc lo hi)
    · exact continuousOn_black_analytic F K phi lo hi hlo0
    · intro x hx
      rw [interior_Icc] at hx
      have hx1 : 1e-12 < x := lt_of_le_of_lt hlo hx.1
      have hder : HasDerivAt (fun y => K * BlackOverK (F / K) y phi)
          (F * normPdf (Real.log (F / K) / x + x / 2)) x := by
        have hb := hasDerivAt_black_nu F K phi x hF hK hphi hx1
        apply hb.congr_of_eventuallyEq
        filter_upwards [eventually_gt_nhds hx1] with y hy
        rw [Black, if_neg (not_lt.2 (le_of_lt hy))]
      rw [hder.deriv]
      exact mul_pos hF (normPdf_pos _)
  intro a ha b hb hab
  have h := hmono ha hb hab
  simpa only [heq a ha, heq b hb] using h

lemma continuousOn_black_nu (F K phi lo hi : ℝ) (hlo : 1e-12 ≤ lo) :
    ContinuousOn (fun x => Black F K x phi) (Set.Icc lo hi) :=
  (continuousOn_black_analytic F K phi lo hi (lt_of_lt_of_le (by norm_num) hlo)).congr
    (black_eq_analytic_on F K phi lo hi hlo)

lemma sqrt_lower_bound (T : ℝ) (hT : 0.1 < T) : (0.3 : ℝ) ≤ Real.sqrt T := by
  rw [Real.le_sqrt (by norm_num) (by linarith)]
  nlinarith

lemma blackImpliedVol_roundtrip_aux (F K sigma T phi : ℝ) (hF : 0 < F) (hK : 0 < K)
    (hphi : phi = 1 ∨ phi = -1) (hsl : 0.05 < sigma) (hsu : sigma < 1)
    (hTl : 0.1 < T) (hTu : T < 2) :
    BlackImpliedVol (Black F K (sigma * Real.sqrt T) phi) K F T phi = some sigma := by
  have hT0 : 0 < T := lt_trans (by norm_num) hTl
  have hsT : 0 < Real.sqrt T := Real.sqrt_pos.2 hT0
  have hsT3 : (0.3 : ℝ) ≤ Real.sqrt T := sqrt_lower_bound T hTl
  have hlo12 : (1e-12 : ℝ) ≤ 0.01 * Real.sqrt T := by nlinarith
  have hmono := black_strictMonoOn F K phi (0.01 * Real.sqrt T) (1.00 * Real.sqrt T)
    hF hK hphi hlo12
  have hlomem : (0.01 * Real.sqrt T) ∈ Set.Icc (0.01 * Real.sqrt T) (1.00 * Real.sqrt T) :=
    ⟨le_refl _, by nlinarith⟩
  have hhimem : (1.00 * Real.sqrt T) ∈ Set.Icc (0.01 * Real.sqrt T) (1.00 * Real.sqrt T) :=
    ⟨by nlinarith, le_refl _⟩
  have hrootmem : sigma * Real.sqrt T
      ∈ Set.Icc (0.01 * Real.sqrt T) (1.00 * Real.sqrt T) :=
    ⟨by nlinarith, by nlinarith⟩
  have hflo : Black F K (0.01 * Real.sqrt T) phi
      ≤ Black F K (sigma * Real.sqrt T) phi :=
    hmono.monotoneOn hlomem hrootmem (by nlinarith)
  have hfhi : Black F K (sigma * Real.sqrt T) phi
      ≤ Black F K (1.00 * Real.sqrt T) phi :=
    hmono.monotoneOn hrootmem hhimem (by nlinarith)
  have hbq : brentq
      (fun nu => Black F K nu phi - Black F K (sigma * Real.sqrt T) phi)
      (0.01 * Real.sqrt T) (1.00 * Real.sqrt T) = some (sigma * Real.sqrt T) := by
    apply brentq_eq_some
    · exact mul_nonpos_iff.2 (Or.inr ⟨by linarith, by linarith⟩)
    · exact hrootmem
    · exact sub_self _
    · intro y hy hfy
      have hBy : Black F K y phi = Black F K (sigma * Real.sqrt T) phi := by linarith
      exact hmono.injOn hy hrootmem hBy
  simp only [BlackImpliedVol, hbq, Option.map_some']
  rw [mul_div_assoc, div_self (ne_of_gt hsT), mul_one]

/-- Claim C6: composing Black pricing (on forward terms) with implied-volatility
inversion recovers the volatility exactly (hence within 1e-6) for
sigma in (0.05, 1), T in (0.1, 2), K, F > 0 and either side. -/
theorem blackImpliedVol_roundtrip (F K sigma T phi : ℝ) (hF : 0 < F) (hK : 0 < K)
    (hphi : phi = 1 ∨ phi = -1) (hsl : 0.05 < sigma) (hsu : sigma < 1)
    (hTl : 0.1 < T) (hTu : T < 2) :
    BlackImpliedVol (Black F K (sigma * Real.sqrt T) phi) K F T phi = some sigma :=
  blackImpliedVol_roundtrip_aux F K sigma T phi hF hK hphi hsl hsu hTl hTu

/-- Witness for C6 at F = K = 1, sigma = 0.5, T = 1, phi = 1 (call). -/
theorem blackImpliedVol_roundtrip_witness :
    ((0 : ℝ) < 1 ∧ ((1 : ℝ) = 1 ∨ (1 : ℝ) = -1) ∧ (0.05 : ℝ) < 0.5 ∧ (0.5 : ℝ) < 1 ∧
        (0.1 : ℝ) < 1 ∧ (1 : ℝ) < 2) ∧
      BlackImpliedVol (Black 1 1 (0.5 * Real.sqrt 1) 1) 1 1 1 1 = some 0.5 :=
  ⟨⟨by norm_num, Or.inl rfl, by norm_num, by norm_num, by norm_num, by norm_num⟩,
    blackImpliedVol_roundtrip 1 1 0.5 1 1 (by norm_num) (by norm_num) (Or.inl rfl)
      (by norm_num) (by norm_num) (by norm_num) (by norm_num)⟩

/-- Claim C7: the implied-volatility inversion fails (NoRootInBracket,
modelled as none) exactly when the target price lies outside the range of
Black-formula values achievable over the bracket
[0.01*sqrt(T), 1.00*sqrt(T)]; on success the result is a bracketed exact root
divided by sqrt(T).  (The hypothesis 1e-12 ≤ 0.01*sqrt(T), i.e. T ≥ 1e-20,
keeps the whole bracket inside the analytic branch of Black.) -/
theorem blackImpliedVol_error_iff (price K F T phi : ℝ) (hK : 0 < K) (hF : 0 < F)
    (hT : 0 < T) (hphi : phi = 1 ∨ phi = -1)
    (hbr : (1e-12 : ℝ) ≤ 0.01 * Real.sqrt T) :
    (BlackImpliedVol price K F T phi = none ↔
      price ∉ Set.Icc (Black F K (0.01 * Real.sqrt T) phi)
        (Black F K (1.00 * Real.sqrt T) phi)) ∧
    ∀ sigma, BlackImpliedVol price K F T phi = some sigma →
      ∃ nu ∈ Set.Icc (0.01 * Real.sqrt T) (1.00 * Real.sqrt T),
        Black F K nu phi = price ∧ sigma = nu / Real.sqrt T := by
  have hsT : 0 < Real.sqrt T := Real.sqrt_pos.2 hT
  have hlohi : 0.01 * Real.sqrt T ≤ 1.00 * Real.sqrt T := by nlinarith
  have hmono := black_strictMonoOn F K phi (0.01 * Real.sqrt T) (1.00 * Real.sqrt T)
    hF hK hphi hbr
  have hcont := continuousOn_black_nu F K phi (0.01 * Real.sqrt T) (1.00 * Real.sqrt T) hbr
  have hlomem : (0.01 * Real.sqrt T) ∈ Set.Icc (0.01 * Real.sqrt T) (1.00 * Real.sqrt T) :=
    ⟨le_refl _, hlohi⟩
  have hhimem : (1.00 * Real.sqrt T) ∈ Set.Icc (0.01 * Real.sqrt T) (1.00 * Real.sqrt T) :=
    ⟨hlohi, le_refl _⟩
  constructor
  · rw [show (BlackImpliedVol price K F T phi = none) ↔
        (brentq (fun nu => Black F K nu phi - price)
          (0.01 * Real.sqrt T) (1.00 * Real.sqrt T) = none) from by
      simp only [BlackImpliedVol, Option.map_eq_none']]
    rw [brentq_eq_none_iff]
    constructor
    · intro hno hmem
      apply hno
      constructor
      · exact mul_nonpos_iff.2 (Or.inr ⟨by simp only [sub_nonpos]; exact hmem.1,
          by simp only [sub_nonneg]; exact hmem.2⟩)
      · have himg := intermediate_value_Icc hlohi hcont hmem
        obtain ⟨x, hx, hBx⟩ := himg
        have hBx2 : Black F K x phi = price := hBx
        exact ⟨x, hx, by rw [hBx2, sub_self]⟩
    · intro hnot hcond
      apply hnot
      obtain ⟨x, hx, hfx⟩ := hcond.2
      have hBx : Black F K x phi = price := by linarith [hfx, sub_eq_zero.1 hfx]
      constructor
      · rw [← hBx]
        exact hmono.monotoneOn hlomem hx hx.1
      · rw [← hBx]
        exact hmono.monotoneOn hx hhimem hx.2
  · intro sigma hsome
    simp only [BlackImpliedVol, Option.map_eq_some'] at hsome
    obtain ⟨nu, hbq, hdiv⟩ := hsome
    obtain ⟨hmem, hroot⟩ := brentq_mem _ _ _ _ hbq
    exact ⟨nu, hmem, sub_eq_zero.1 hroot, hdiv.symm⟩

/-- Witness for C7 at price = 0, K = F = T = 1, phi = 1. -/
theorem blackImpliedVol_error_iff_witness :
    ((0 : ℝ) < 1 ∧ ((1 : ℝ) = 1 ∨ (1 : ℝ) = -1) ∧ (1e-12 : ℝ) ≤ 0.01 * Real.sqrt 1) ∧
      ((BlackImpliedVol 0 1 1 1 1 = none ↔
        (0 : ℝ) ∉ Set.Icc (Black 1 1 (0.01 * Real.sqrt 1) 1)
          (Black 1 1 (1.00 * Real.sqrt 1) 1)) ∧
      ∀ sigma, BlackImpliedVol 0 1 1 1 1 = some sigma →
        ∃ nu ∈ Set.Icc (0.01 * Real.sqrt 1) (1.00 * Real.sqrt 1),
          Black 1 1 nu 1 = 0 ∧ sigma = nu / Real.sqrt 1) :=
  ⟨⟨by norm_num, Or.inl rfl, by rw [Real.sqrt_one]; norm_num⟩,
    blackImpliedVol_error_iff 0 1 1 1 1 (by norm_num) (by norm_num) (by norm_num)
      (Or.inl rfl) (by rw [Real.sqrt_one]; norm_num)⟩

/-- Claim C10: whenever the implied-volatility inversion succeeds, the returned
value lies in [0.01, 1.00]: the root lies inside the bracket
[0.01*sqrt(T), 1.00*sqrt(T)] and is divided by sqrt(T). -/
theorem blackImpliedVol_range (price K F T phi sigma : ℝ) (hT : 0 < T)
    (h : BlackImpliedVol price K F T phi = some sigma) :
    sigma ∈ Set.Icc (0.01 : ℝ) 1 := by
  have hsT : 0 < Real.sqrt T := Real.sqrt_pos.2 hT
  simp only [BlackImpliedVol, Option.map_eq_some'] at h
  obtain ⟨nu, hbq, hdiv⟩ := h
  have hmem := (brentq_mem _ _ _ _ hbq).1
  constructor
  · rw [← hdiv, le_div_iff hsT]
    exact hmem.1
  · rw [← hdiv, div_le_one hsT]
    have h2 := hmem.2
    linarith

/-- Witness for C10: the inversion at the price generated by sigma = 0.5 with
F = K = T = 1 succeeds with value 0.5, which lies in [0.01, 1]. -/
theorem blackImpliedVol_range_witness :
    ((0 : ℝ) < 1) ∧ (0.5 : ℝ) ∈ Set.Icc (0.01 : ℝ) 1 :=
  ⟨by norm_num,
    blackImpliedVol_range (Black 1 1 (0.5 * Real.sqrt 1) 1) 1 1 1 1 0.5 (by norm_num)
      (blackImpliedVol_roundtrip_aux 1 1 0.5 1 1 (by norm_num) (by norm_num) (Or.inl rfl)
        (by norm_num) (by norm_num) (by norm_num) (by norm_num))⟩

/-! Derivative of the Black-Scholes price in the maturity. -/

lemma hasDerivAt_blackScholesPrice_T (S K r sigma T phi : ℝ) (hS : 0 < S) (hK : 0 < K)
    (hT : 0 < T) (hphi : phi = 1 ∨ phi = -1) (hnu : (1e-12 : ℝ) < sigma * Real.sqrt T) :
    HasDerivAt (fun t => BlackScholesPrice S K r sigma t phi)
      (BlackScholesTheta S K r sigma T phi) T := by
  have hsT : 0 < Real.sqrt T := Real.sqrt_pos.2 hT
  have hnu0 : sigma * Real.sqrt T ≠ 0 := ne_of_gt (lt_trans (by norm_num) hnu)
  have hS0 : S ≠ 0 := ne_of_gt hS
  have hK0 : K ≠ 0 := ne_of_gt hK
  set a := Real.log (S / K) with ha
  -- eventual equality of the price with its analytic normal-form expression
  have hev : (fun t => BlackScholesPrice S K r sigma t phi) =ᶠ[nhds T]
      (fun t : ℝ => phi * (S * normCdf (phi *
          ((a + r * t) / (sigma * Real.sqrt t) + sigma * Real.sqrt t / 2))
        - K * Real.exp (-r * t) * normCdf (phi *
          ((a + r * t) / (sigma * Real.sqrt t) + sigma * Real.sqrt t / 2
            - sigma * Real.sqrt t)))) := by
    have hcont : ContinuousAt (fun t : ℝ => sigma * Real.sqrt t) T :=
      (continuous_const.mul Real.continuous_sqrt).continuousAt
    have hpre : Set.preimage (fun t : ℝ => sigma * Real.sqrt t) (Set.Ioi (1e-12 : ℝ))
        ∈ nhds T := hcont.preimage_mem_nhds (Ioi_mem_nhds hnu)
    filter_upwards [eventually_gt_nhds hT, hpre] with t ht hmem
    have hmem' : (1e-12 : ℝ) < sigma * Real.sqrt t := hmem
    have hdf : Real.exp (-r * t) ≠ 0 := Real.exp_ne_zero _
    have hlog : Real.log (S / Real.exp (-r * t) / K) = a + r * t := by
      rw [Real.log_div (div_ne_zero hS0 hdf) hK0, Real.log_div hS0 hdf, Real.log_exp,
        ha, Real.log_div hS0 hK0]
      ring
    rw [BlackScholesPrice, Black, if_neg (not_lt.2 (le_of_lt hmem')), BlackOverK]
    rw [hlog]
    have hSdf : S / Real.exp (-r * t) / K * K * Real.exp (-r * t) = S := by
      field_simp
      ring
    set A := normCdf (phi * ((a + r * t) / (sigma * Real.sqrt t)
      + sigma * Real.sqrt t / 2)) with hA
    set B := normCdf (phi * ((a + r * t) / (sigma * Real.sqrt t)
      + sigma * Real.sqrt t / 2 - sigma * Real.sqrt t)) with hB
    linear_combination phi * A * hSdf
  -- derivative of the analytic expression
  have hL : HasDerivAt (fun t : ℝ => a + r * t) r T := by
    simpa using ((hasDerivAt_id T).const_mul r).const_add a
  have hnuT : HasDerivAt (fun t : ℝ => sigma * Real.sqrt t)
      (sigma * (1 / (2 * Real.sqrt T))) T :=
    (Real.hasDerivAt_sqrt (ne_of_gt hT)).const_mul sigma
  have hd1 : HasDerivAt (fun t : ℝ =>
      (a + r * t) / (sigma * Real.sqrt t) + sigma * Real.sqrt t / 2)
      ((r * (sigma * Real.sqrt T) - (a + r * T) * (sigma * (1 / (2 * Real.sqrt T))))
          / (sigma * Real.sqrt T) ^ 2
        + sigma * (1 / (2 * Real.sqrt T)) / 2) T :=
    (hL.div hnuT hnu0).add (hnuT.div_const 2)
  have hd2 : HasDerivAt (fun t : ℝ =>
      (a + r * t) / (sigma * Real.sqrt t) + sigma * Real.sqrt t / 2
        - sigma * Real.sqrt t)
      ((r * (sigma * Real.sqrt T) - (a + r * T) * (sigma * (1 / (2 * Real.sqrt T))))
          / (sigma * Real.sqrt T) ^ 2
        + sigma * (1 / (2 * Real.sqrt T)) / 2 - sigma * (1 / (2 * Real.sqrt T))) T :=
    hd1.sub hnuT
  set D1 := (r * (sigma * Real.sqrt T) - (a + r * T) * (sigma * (1 / (2 * Real.sqrt T))))
      / (sigma * Real.sqrt T) ^ 2
    + sigma * (1 / (2 * Real.sqrt T)) / 2 with hD1
  have hQ1 : HasDerivAt (fun t : ℝ => normCdf (phi *
      ((a + r * t) / (sigma * Real.sqrt t) + sigma * Real.sqrt t / 2)))
      (normPdf (phi * ((a + r * T) / (sigma * Real.sqrt T) + sigma * Real.sqrt T / 2))
        * (phi * D1)) T :=
    (hasDerivAt_normCdf _).comp T (hd1.const_mul phi)
  have hQ2 : HasDerivAt (fun t : ℝ => normCdf (phi *
      ((a + r * t) / (sigma * Real.sqrt t) + sigma * Real.sqrt t / 2
        - sigma * Real.sqrt t)))
      (normPdf (phi * ((a + r * T) / (sigma * Real.sqrt T) + sigma * Real.sqrt T / 2
          - sigma * Real.sqrt T))
        * (phi * (D1 - sigma * (1 / (2 * Real.sqrt T))))) T :=
    (hasDerivAt_normCdf _).comp T (hd2.const_mul phi)
  have hE : HasDerivAt (fun t : ℝ => Real.exp (-r * t))
      (Real.exp (-r * T) * -r) T := by
    have hlin : HasDerivAt (fun t : ℝ => -r * t) (-r) T := by
      simpa using (hasDerivAt_id T).const_mul (-r)
    exact hlin.exp
  have hF1 : HasDerivAt (fun t : ℝ => phi * (S * normCdf (phi *
      ((a + r * t) / (sigma * Real.sqrt t) + sigma * Real.sqrt t / 2))
      - K * Real.exp (-r * t) * normCdf (phi *
      ((a + r * t) / (sigma * Real.sqrt t) + sigma * Real.sqrt t / 2
        - sigma * Real.sqrt t))))
      (phi * (S * (normPdf (phi * ((a + r * T) / (sigma * Real.sqrt T)
            + sigma * Real.sqrt T / 2)) * (phi * D1))
        - (K * (Real.exp (-r * T) * -r) * normCdf (phi *
            ((a + r * T) / (sigma * Real.sqrt T) + sigma * Real.sqrt T / 2
              - sigma * Real.sqrt T))
          + K * Real.exp (-r * T) * (normPdf (phi *
              ((a + r * T) / (sigma * Real.sqrt T) + sigma * Real.sqrt T / 2
                - sigma * Real.sqrt T))
            * (phi * (D1 - sigma * (1 / (2 * Real.sqrt T)))))))) T :=
    ((hQ1.const_mul S).sub ((hE.const_mul K).mul hQ2)).const_mul phi
  have hmain := hF1.congr_of_eventuallyEq hev
  convert hmain using 1
  -- identify the derivative value with BlackScholesTheta
  have hlogT : Real.log (Real.exp (r * T) * S / K) = a + r * T := by
    rw [Real.log_div (mul_ne_zero (Real.exp_ne_zero _) hS0) hK0,
      Real.log_mul (Real.exp_ne_zero _) hS0, Real.log_exp, ha, Real.log_div hS0 hK0]
    ring
  have hmny : 0 < Real.exp (r * T) * S / K :=
    div_pos (mul_pos (Real.exp_pos _) hS) hK
  have hshift := normPdf_shift (Real.exp (r * T) * S / K) (sigma * Real.sqrt T) hmny hnu0
  rw [hlogT] at hshift
  have hee : Real.exp (r * T) * Real.exp (-r * T) = 1 := by
    rw [← Real.exp_add]
    ring_nf
    exact Real.exp_zero
  have hshift2 : K * Real.exp (-r * T)
        * normPdf ((a + r * T) / (sigma * Real.sqrt T) + sigma * Real.sqrt T / 2
          - sigma * Real.sqrt T)
      = S * normPdf ((a + r * T) / (sigma * Real.sqrt T) + sigma * Real.sqrt T / 2) := by
    rw [hshift]
    have hgoal : K * Real.exp (-r * T) * (Real.exp (r * T) * S / K
          * normPdf ((a + r * T) / (sigma * Real.sqrt T) + sigma * Real.sqrt T / 2))
        = Real.exp (r * T) * Real.exp (-r * T)
          * (S * normPdf ((a + r * T) / (sigma * Real.sqrt T)
              + sigma * Real.sqrt T / 2)) := by
      field_simp
      ring
    rw [hgoal, hee, one_mul]
  rw [BlackScholesTheta, hlogT]
  rcases hphi with rfl | rfl
  · simp only [one_mul]
    linear_combination (D1 - sigma * (1 / (2 * Real.sqrt T))) * hshift2
  · simp only [neg_one_mul, normPdf_neg]
    linear_combination (D1 - sigma * (1 / (2 * Real.sqrt T))) * hshift2

/-- Claim C4 (amended): BlackScholesTheta equals the POSITIVE partial
derivative of the price with respect to time-to-maturity T (the notebook
defines Theta as d v / d T and checks it against the forward finite
difference of +dv/dT), not its negative. -/
theorem blackScholesTheta_is_deriv (S K r sigma T phi : ℝ) (hS : 0 < S) (hK : 0 < K)
    (hsigma : 0 < sigma) (hT : 0 < T) (hphi : phi = 1 ∨ phi = -1)
    (hnu : (1e-12 : ℝ) < sigma * Real.sqrt T) :
    HasDerivAt (fun t => BlackScholesPrice S K r sigma t phi)
      (BlackScholesTheta S K r sigma T phi) T :=
  hasDerivAt_blackScholesPrice_T S K r sigma T phi hS hK hT hphi hnu

/-- Witness for the amended C4 at S = K = 1, r = 0, sigma = 1, T = 1, phi = 1. -/
theorem blackScholesTheta_is_deriv_witness :
    ((0 : ℝ) < 1 ∧ ((1 : ℝ) = 1 ∨ (1 : ℝ) = -1) ∧ (1e-12 : ℝ) < 1 * Real.sqrt 1) ∧
      HasDerivAt (fun t => BlackScholesPrice 1 1 0 1 t 1)
        (BlackScholesTheta 1 1 0 1 1 1) 1 :=
  ⟨⟨by norm_num, Or.inl rfl, by rw [Real.sqrt_one]; norm_num⟩,
    blackScholesTheta_is_deriv 1 1 0 1 1 1 (by norm_num) (by norm_num) (by norm_num)
      (by norm_num) (Or.inl rfl) (by rw [Real.sqrt_one]; norm_num)⟩

/-- Counterexample to C4 as stated: at S = K = 1, r = 0, sigma = 1, T = 1,
phi = 1, the price is NOT differentiable in T with value equal to the negative
of BlackScholesTheta: the code's theta is the positive time-derivative, which
is strictly positive at this input, so the negated value is a different
number. -/
theorem blackScholesTheta_neg_deriv_cex :
    ¬ HasDerivAt (fun t => BlackScholesPrice 1 1 0 1 t 1)
      (-BlackScholesTheta 1 1 0 1 1 1) 1 := by
  intro hcontra
  have hD := hasDerivAt_blackScholesPrice_T 1 1 0 1 1 1 (by norm_num) (by norm_num)
    (by norm_num) (Or.inl rfl) (by rw [Real.sqrt_one]; norm_num)
  have heq := hD.unique hcontra
  have hpos : 0 < BlackScholesTheta 1 1 0 1 1 1 := by
    have h2 : 0 < Real.sqrt 1 := Real.sqrt_pos.2 one_pos
    have key : BlackScholesTheta 1 1 0 1 1 1
        = normPdf (Real.log (Real.exp (0 * 1) * 1 / 1) / (1 * Real.sqrt 1)
            + 1 * Real.sqrt 1 / 2) / 2 / Real.sqrt 1 := by
      rw [BlackScholesTheta]
      ring
    rw [key]
    exact div_pos (div_pos (normPdf_pos _) two_pos) h2
  linarith
